import Mathlib

/-
Verification of the `fixed_vec_deque` ring-buffer deque (src/lib.rs).

The container state is `(cap, ptr, len, data)` where `cap` is `T::size()`,
`ptr` is the write cursor (`head`), `len` the logical length, and `data`
the backing storage viewed as a total function on physical offsets (only
offsets `< cap` are meaningful, exactly like the Rust fixed array).

Rust operations that can panic or hit undefined behaviour (remainder by
zero in `wrap_add`, usize underflow in `wrap_sub`, out-of-bounds pointer
arithmetic, `debug_assert!` failures in `copy`/`buffer_write`) are
modelled in the `Option` monad: `none` is a failed execution.  An "absent"
result in the Rust API (`Option::None` returned to the caller) is the
*inner* `Option` of a successfully returned value.
-/

namespace FVD

/-- State of a `FixedVecDeque<T>`: capacity `T::size()`, the write cursor
`ptr`, the logical length `len`, and the backing storage. -/
structure FixedVecDeque (α : Type) where
  cap : Nat
  ptr : Nat
  len : Nat
  data : Nat → α

variable {α : Type}

/-- Translation of `Array::wrap_add`: `(idx + addend) % Self::size()`.
Rust panics on remainder by zero, modelled by `none`. -/
def wrap_add (sz idx addend : Nat) : Option Nat :=
  if sz = 0 then none else some ((idx + addend) % sz)

/-- Translation of `Array::wrap_sub`:
`if subtrahend > idx { size - (subtrahend - idx) } else { idx - subtrahend }`.
The subtraction `size - (subtrahend - idx)` is usize arithmetic and
underflows when `subtrahend - idx > size`; that failure is `none`. -/
def wrap_sub (sz idx subtrahend : Nat) : Option Nat :=
  if idx < subtrahend then
    if sz < subtrahend - idx then none
    else some (sz - (subtrahend - idx))
  else some (idx - subtrahend)

/-- Translation of `FixedVecDeque::is_empty`. -/
def is_empty (d : FixedVecDeque α) : Bool := d.len == 0

/-- Translation of `FixedVecDeque::is_full`. -/
def is_full (d : FixedVecDeque α) : Bool := d.len == d.cap

/-- Translation of `FixedVecDeque::tail`: `T::wrap_sub(self.ptr, self.len)`. -/
def tail (d : FixedVecDeque α) : Option Nat :=
  wrap_sub d.cap d.ptr d.len

/-- Translation of `FixedVecDeque::ptr_index`: `T::wrap_add(self.tail(), i)`. -/
def ptr_index (d : FixedVecDeque α) (i : Nat) : Option Nat := do
  let t ← tail d
  wrap_add d.cap t i

/-- Translation of `FixedVecDeque::is_contiguous`:
`self.len != T::size() && self.tail() <= self.ptr`. -/
def is_contiguous (d : FixedVecDeque α) : Option Bool := do
  let t ← tail d
  pure (d.len != d.cap && decide (t ≤ d.ptr))

/-- Translation of `FixedVecDeque::buffer`: `&*self.data.ptr().add(off)`.
Dereferencing out of bounds is undefined behaviour, hence the check. -/
def buffer (d : FixedVecDeque α) (off : Nat) : Option α :=
  if off < d.cap then some (d.data off) else none

/-- Translation of `FixedVecDeque::buffer_read` (`ptr::read` at `off`, with
`debug_assert!(off < T::size())`). -/
def buffer_read (d : FixedVecDeque α) (off : Nat) : Option α :=
  if off < d.cap then some (d.data off) else none

/-- Translation of `FixedVecDeque::buffer_write` (`ptr::write` at `off`, with
`debug_assert!(off < T::size())`). -/
def buffer_write (d : FixedVecDeque α) (off : Nat) (v : α) :
    Option (FixedVecDeque α) :=
  if off < d.cap then
    some { d with data := fun k => if k = off then v else d.data k }
  else none

/-- Translation of `FixedVecDeque::copy`: `ptr::copy` (memmove) of `n`
elements from offset `src` to offset `dst`; the two `debug_assert!`s
require both ranges to lie inside the storage. -/
def copy (d : FixedVecDeque α) (dst src n : Nat) : Option (FixedVecDeque α) :=
  if dst + n ≤ d.cap ∧ src + n ≤ d.cap then
    some { d with
      data := fun k =>
        if dst ≤ k ∧ k < dst + n then d.data (src + (k - dst)) else d.data k }
  else none

/-- Translation of `FixedVecDeque::front`. -/
def front (d : FixedVecDeque α) : Option (Option α) :=
  if d.len = 0 then pure none
  else do
    let t ← tail d
    let v ← buffer d t
    pure (some v)

/-- Translation of `FixedVecDeque::back`. -/
def back (d : FixedVecDeque α) : Option (Option α) :=
  if d.len = 0 then pure none
  else do
    let b ← wrap_sub d.cap d.ptr 1
    let v ← buffer d b
    pure (some v)

/-- Translation of `FixedVecDeque::get`. -/
def get (d : FixedVecDeque α) (index : Nat) : Option (Option α) :=
  if index < d.len then do
    let off ← ptr_index d index
    let v ← buffer d off
    pure (some v)
  else pure none

/-- Translation of `FixedVecDeque::push_back`.  The returned `Nat` is the
physical offset of the slot whose mutable reference Rust hands back. -/
def push_back (d : FixedVecDeque α) : Option (Nat × FixedVecDeque α) := do
  let head := d.ptr
  let p ← wrap_add d.cap d.ptr 1
  let d := { d with
    ptr := p
    len := if d.len < d.cap then d.len + 1 else d.len }
  if head < d.cap then pure (head, d) else none

/-- The caller-side idiom `*deq.push_back() = v`: push and assign through
the returned reference. -/
def push_back_assign (d : FixedVecDeque α) (v : α) : Option (FixedVecDeque α) := do
  let (off, d1) ← push_back d
  buffer_write d1 off v

/-- Translation of `FixedVecDeque::push_front`. The returned `Nat` is the
physical offset of the newly writable front slot. -/
def push_front (d : FixedVecDeque α) : Option (Nat × FixedVecDeque α) := do
  if d.len = d.cap then
    let p ← wrap_sub d.cap d.ptr 1
    let d := { d with ptr := p }
    if p < d.cap then pure (p, d) else none
  else
    let d := { d with len := d.len + 1 }
    let f ← tail d
    if f < d.cap then pure (f, d) else none

/-- The caller-side idiom `*deq.push_front() = v`. -/
def push_front_assign (d : FixedVecDeque α) (v : α) : Option (FixedVecDeque α) := do
  let (off, d1) ← push_front d
  buffer_write d1 off v

/-- Translation of `FixedVecDeque::pop_front`.  The first component is the
value behind the returned reference (`None` when empty). -/
def pop_front (d : FixedVecDeque α) : Option (Option α × FixedVecDeque α) := do
  if d.len = 0 then pure (none, d)
  else
    let t ← tail d
    let d1 := { d with len := d.len - 1 }
    let v ← buffer d t
    pure (some v, d1)

/-- Translation of `FixedVecDeque::pop_back`. -/
def pop_back (d : FixedVecDeque α) : Option (Option α × FixedVecDeque α) := do
  if d.len = 0 then pure (none, d)
  else
    let p ← wrap_sub d.cap d.ptr 1
    let d1 := { d with ptr := p, len := d.len - 1 }
    let v ← buffer d1 p
    pure (some v, d1)

/-- Translation of `FixedVecDeque::truncate`. -/
def truncate (d : FixedVecDeque α) (len : Nat) : Option (FixedVecDeque α) := do
  if len < d.len then
    let p ← wrap_sub d.cap d.ptr (d.len - len)
    pure { d with ptr := p, len := len }
  else pure d

/-- Translation of `FixedVecDeque::clear`. -/
def clear (d : FixedVecDeque α) : FixedVecDeque α :=
  { d with ptr := 0, len := 0 }

/-- Translation of `FixedVecDeque::swap`: two `assert!(_ < T::size())`
checks (a panic when violated), then `ptr::swap` at the two physical
offsets. -/
def swap (d : FixedVecDeque α) (i j : Nat) : Option (FixedVecDeque α) := do
  if i < d.cap ∧ j < d.cap then
    let ri ← ptr_index d i
    let rj ← ptr_index d j
    pure { d with
      data := fun k =>
        if k = ri then d.data rj
        else if k = rj then d.data ri
        else d.data k }
  else none

/-- The six-way relocation step of `FixedVecDeque::remove`: the `match` on
`(contiguous, distance_to_tail <= distance_to_head, idx >= tail)` rendered
as the same six cases, returning the shifted state and the physical slot
that receives the saved temporary.  `head - idx - 1` and `self.ptr -= 1`
are usize subtractions, guarded exactly where Rust would underflow. -/
def remove_step (d : FixedVecDeque α) (index idx head t : Nat)
    (contiguous : Bool) (distance_to_head : Nat) :
    Option (FixedVecDeque α × Nat) := do
  if contiguous ∧ index ≤ distance_to_head then do
    let d1 ← copy d (t + 1) t index
    pure (d1, t)
  else if contiguous then do
    if idx + 1 ≤ head then do
      let d1 ← copy d idx (idx + 1) (head - idx - 1)
      pure ({ d1 with ptr := d1.ptr - 1 }, head)
    else none
  else if index ≤ distance_to_head ∧ t ≤ idx then do
    let d1 ← copy d (t + 1) t index
    pure (d1, t)
  else if ¬ index ≤ distance_to_head ∧ ¬ t ≤ idx then do
    if idx + 1 ≤ head then do
      let d1 ← copy d idx (idx + 1) (head - idx - 1)
      pure ({ d1 with ptr := d1.ptr - 1 }, head)
    else none
  else if ¬ index ≤ distance_to_head ∧ t ≤ idx then do
    let d1 ← copy d idx (idx + 1) (d.cap - idx - 1)
    let d2 ←
      if head ≠ 0 then do
        let da ← copy d1 (d.cap - 1) 0 1
        copy da 0 1 (head - 1)
      else pure d1
    let p ← wrap_sub d.cap d2.ptr 1
    pure ({ d2 with ptr := p }, head)
  else do
    let d1 ← copy d 1 0 idx
    let d2 ← copy d1 0 (d.cap - 1) 1
    let d3 ← copy d2 (t + 1) t (d.cap - t - 1)
    pure (d3, t)

/-- Translation of `FixedVecDeque::remove`: the absent cases, the read of
the temporary, the `remove_step` relocation, and the final write of the
temporary into the vacated slot. -/
def remove (d : FixedVecDeque α) (index : Nat) :
    Option (Option α × FixedVecDeque α) := do
  if d.cap = 0 ∨ d.len ≤ index then pure (none, d)
  else do
    let idx ← ptr_index d index
    let head := d.ptr
    let t ← tail d
    let tmp ← buffer_read d idx
    let distance_to_head := d.len - index
    let contiguous ← is_contiguous d
    let step ← remove_step d index idx head t contiguous distance_to_head
    let dm := { step.1 with len := step.1.len - 1 }
    let dm ← buffer_write dm step.2 tmp
    let v ← buffer dm step.2
    pure (some v, dm)

/-- Translation of `FixedVecDeque::swap_remove_back`. -/
def swap_remove_back (d : FixedVecDeque α) (index : Nat) :
    Option (Option α × FixedVecDeque α) := do
  if 0 < d.len ∧ index < d.len - 1 then do
    let d1 ← swap d index (d.len - 1)
    pop_back d1
  else if d.len ≤ index then pure (none, d)
  else pop_back d

/-- Translation of `FixedVecDeque::swap_remove_front`. -/
def swap_remove_front (d : FixedVecDeque α) (index : Nat) :
    Option (Option α × FixedVecDeque α) := do
  if 0 < d.len ∧ index < d.len ∧ index ≠ 0 then do
    let d1 ← swap d index 0
    pop_front d1
  else if d.len ≤ index then pure (none, d)
  else pop_front d

/-- Loop body of `FixedVecDeque::retain`: `i` is the current logical
index, `fuel` the number of iterations left (the loop runs over the
length captured before the loop), `del` the deletion counter. -/
def retainGo (p : α → Bool) (d : FixedVecDeque α) (i fuel del : Nat) :
    Option (FixedVecDeque α × Nat) :=
  match fuel with
  | 0 => some (d, del)
  | fuel + 1 => do
    let off ← ptr_index d i
    let v ← buffer d off
    if ¬ p v then retainGo p d (i + 1) fuel (del + 1)
    else if 0 < del then do
      let d1 ← swap d (i - del) i
      retainGo p d1 (i + 1) fuel del
    else retainGo p d (i + 1) fuel del

/-- Translation of `FixedVecDeque::retain`. -/
def retain (d : FixedVecDeque α) (p : α → Bool) : Option (FixedVecDeque α) := do
  let len := d.len
  let (d1, del) ← retainGo p d 0 len 0
  if 0 < del then truncate d1 (len - del) else pure d1

/-- Translation of `Extend::extend` (and bulk ingestion generally):
`for elt in iter { *self.push_back() = elt; }`. -/
def extend (d : FixedVecDeque α) (xs : List α) : Option (FixedVecDeque α) :=
  match xs with
  | [] => some d
  | x :: xs => do
    let d1 ← push_back_assign d x
    extend d1 xs

/-- Translation of `FixedVecDeque::resize`:
`assert!(new_len < T::size())` (a panic when violated), then extend with
clones of `value` or truncate. -/
def resize (d : FixedVecDeque α) (new_len : Nat) (value : α) :
    Option (FixedVecDeque α) := do
  if new_len < d.cap then
    if d.len < new_len then extend d (List.replicate (new_len - d.len) value)
    else truncate d new_len
  else none

/-- Translation of slicing `&buf[lo..hi]`, which panics unless
`lo ≤ hi ≤ buf.len()`. -/
def sliceOf (l : List α) (lo hi : Nat) : Option (List α) :=
  if lo ≤ hi ∧ hi ≤ l.length then some ((l.take hi).drop lo) else none

/-- Translation of `split_at(i)` on a slice, which panics unless
`i ≤ len`. -/
def splitAtChecked (l : List α) (i : Nat) : Option (List α × List α) :=
  if i ≤ l.length then some (l.take i, l.drop i) else none

/-- Translation of `RingSlices::ring_slices`. -/
def ring_slices (buf : List α) (head t : Nat) : Option (List α × List α) :=
  if t ≤ head then do
    let s ← sliceOf buf t head
    pure (s, ([] : List α))
  else do
    let (mid, right) ← splitAtChecked buf t
    let (left, _) ← splitAtChecked mid head
    pure (right, left)

/-- The whole backing storage as a slice (`buffer_as_slice`). -/
def physList (d : FixedVecDeque α) : List α :=
  List.ofFn (fun i : Fin d.cap => d.data i)

/-- Translation of `FixedVecDeque::as_slices`. -/
def as_slices (d : FixedVecDeque α) : Option (List α × List α) := do
  let buf := physList d
  if d.len = d.cap then do
    let (left, right) ← splitAtChecked buf d.ptr
    pure (right, left)
  else do
    let t ← wrap_sub d.cap d.ptr d.len
    ring_slices buf d.ptr t

/-- The slice comparison at the heart of `PartialEq for FixedVecDeque`,
on the two slice pairs `(sa, sb)` and `(oa, ob)` returned by `as_slices`:
equal-split, self-shorter-front and other-shorter-front cases.  The
`split_at` calls are modelled with their panicking bounds checks. -/
def sliceCmp [DecidableEq α] (sa sb oa ob : List α) : Option Bool := do
  if sa.length = oa.length then
    pure (decide (sa = oa) && decide (sb = ob))
  else if sa.length < oa.length then
    let fr := sa.length
    let mid := oa.length - fr
    let (oa_front, oa_mid) ← splitAtChecked oa fr
    let (sb_mid, sb_back) ← splitAtChecked sb mid
    pure (decide (sa = oa_front) && decide (sb_mid = oa_mid) &&
      decide (sb_back = ob))
  else
    let fr := oa.length
    let mid := sa.length - fr
    let (sa_front, sa_mid) ← splitAtChecked sa fr
    let (ob_mid, ob_back) ← splitAtChecked ob mid
    pure (decide (sa_front = oa) && decide (sa_mid = ob_mid) &&
      decide (sb = ob_back))

/-- Translation of `PartialEq for FixedVecDeque`: length check, then the
three-section slice comparison `sliceCmp` on the `as_slices` views. -/
def deqEq [DecidableEq α] (d e : FixedVecDeque α) : Option Bool := do
  if d.len ≠ e.len then pure false
  else do
    let (sa, sb) ← as_slices d
    let (oa, ob) ← as_slices e
    sliceCmp sa sb oa ob

/-- Translation of `FixedVecDeque::new` with every slot initialised to
`a` (Rust uses `T::Item::default()`). -/
def newDeq (cap : Nat) (a : α) : FixedVecDeque α :=
  { cap := cap, ptr := 0, len := 0, data := fun _ => a }

/-! ### Specification-side abstractions -/

/-- Well-formedness invariant: the write cursor is a valid physical offset
and the logical length never exceeds the capacity.  (`ptr < cap` forces
`cap > 0`; capacity-zero states are treated separately.) -/
def WFdeq (d : FixedVecDeque α) : Prop :=
  d.ptr < d.cap ∧ d.len ≤ d.cap

instance (d : FixedVecDeque α) : Decidable (WFdeq d) := by
  unfold WFdeq; infer_instance

/-- The physical offset of the front element, as a total function:
`(ptr + (cap - len)) % cap`.  Agrees with `tail` on well-formed states. -/
def tailN (d : FixedVecDeque α) : Nat :=
  (d.ptr + (d.cap - d.len)) % d.cap

/-- The front physical offset written the way the specification writes it:
`(head - len) mod Capacity` as integers. -/
def tailSpec (d : FixedVecDeque α) : Nat :=
  (((d.ptr : Int) - (d.len : Int)) % (d.cap : Int)).toNat

/-- The logical front-to-back contents: element `j` lives at physical
offset `(tail + j) % cap`. -/
def toList (d : FixedVecDeque α) : List α :=
  List.ofFn (fun j : Fin d.len => d.data ((tailN d + j) % d.cap))

/-! ### Modular-arithmetic and `toList` basics -/

theorem wrap_add_pos (sz idx a : Nat) (h : 0 < sz) :
    wrap_add sz idx a = some ((idx + a) % sz) := by
  simp [wrap_add, Nat.pos_iff_ne_zero.mp h]

theorem wrap_sub_some (sz idx sub : Nat) (h1 : idx < sz) (h2 : sub ≤ sz) :
    wrap_sub sz idx sub = some ((idx + (sz - sub)) % sz) := by
  unfold wrap_sub
  by_cases hc : idx < sub
  · rw [if_pos hc, if_neg (by omega)]
    have hx : idx + (sz - sub) < sz := by omega
    rw [Nat.mod_eq_of_lt hx]
    congr 2
    omega
  · rw [if_neg hc]
    have hx : idx + (sz - sub) = (idx - sub) + sz := by omega
    rw [hx, Nat.add_mod_right, Nat.mod_eq_of_lt (by omega)]

theorem tail_some (d : FixedVecDeque α) (h : WFdeq d) : tail d = some (tailN d) :=
  wrap_sub_some _ _ _ h.1 h.2

theorem tailN_lt (d : FixedVecDeque α) (h : 0 < d.cap) : tailN d < d.cap :=
  Nat.mod_lt _ h

theorem ptr_index_some (d : FixedVecDeque α) (h : WFdeq d) (i : Nat) :
    ptr_index d i = some ((tailN d + i) % d.cap) := by
  have hc : 0 < d.cap := Nat.lt_of_le_of_lt (Nat.zero_le _) h.1
  rw [ptr_index, tail_some d h]
  simp [wrap_add_pos _ _ _ hc]

theorem offset_inj {n t j k : Nat} (hj : j < n) (hk : k < n)
    (h : (t + j) % n = (t + k) % n) : j = k := by
  have h1 : t + j ≡ t + k [MOD n] := h
  have h2 : j ≡ k [MOD n] := Nat.ModEq.add_left_cancel' t h1
  have h3 : j % n = k % n := h2
  rwa [Nat.mod_eq_of_lt hj, Nat.mod_eq_of_lt hk] at h3

theorem toList_length (d : FixedVecDeque α) : (toList d).length = d.len := by
  simp [toList]

theorem toList_getElem (d : FixedVecDeque α) (j : Nat) (hj : j < (toList d).length) :
    (toList d)[j] = d.data ((tailN d + j) % d.cap) := by
  simp [toList]

theorem head_offset (d : FixedVecDeque α) (h : WFdeq d) :
    (tailN d + d.len) % d.cap = d.ptr := by
  obtain ⟨hp, hl⟩ := h
  unfold tailN
  rw [Nat.mod_add_mod]
  have hx : d.ptr + (d.cap - d.len) + d.len = d.ptr + d.cap := by omega
  rw [hx, Nat.add_mod_right, Nat.mod_eq_of_lt hp]

theorem physList_length (d : FixedVecDeque α) : (physList d).length = d.cap := by
  simp [physList]

theorem physList_getElem (d : FixedVecDeque α) (k : Nat)
    (hk : k < (physList d).length) : (physList d)[k] = d.data k := by
  simp [physList]

theorem int_sub_emod_toNat (p s n : Nat) (hn : 0 < n) (hp : p < n) (hs : s ≤ n) :
    (((p : Int) - (s : Int)) % (n : Int)).toNat = (p + (n - s)) % n := by
  have h1 : ((p + (n - s) : Nat) : Int) = (p : Int) - s + n := by
    push_cast
    omega
  have h2 : ((p : Int) - s) % n = (((p + (n - s) : Nat) : Int)) % n := by
    rw [h1, Int.add_emod, Int.emod_self, add_zero, Int.emod_emod_of_dvd _ dvd_rfl]
  rw [h2, ← Int.natCast_mod, Int.toNat_natCast]

theorem tailSpec_eq_tailN (d : FixedVecDeque α) (h : WFdeq d) :
    tailSpec d = tailN d := by
  have hc : 0 < d.cap := Nat.lt_of_le_of_lt (Nat.zero_le _) h.1
  unfold tailSpec tailN
  exact int_sub_emod_toNat d.ptr d.len d.cap hc h.1 h.2

theorem buffer_some (d : FixedVecDeque α) (k : Nat) (hk : k < d.cap) :
    buffer d k = some (d.data k) := by
  simp [buffer, hk]

/-- A concrete well-formed deque used by the witnesses below: capacity 3,
cursor 2, two logical elements, storage slot `k` holding `k`. -/
def dW : FixedVecDeque Nat := ⟨3, 2, 2, fun k => k⟩

/-! ### Frame facts for `pop_front`, `pop_back` and `clear` (claim C6) -/

theorem pop_front_frame (d : FixedVecDeque α) :
    (pop_front d).elim True (fun p => p.2.cap = d.cap ∧ p.2.data = d.data) := by
  unfold pop_front
  split
  · simp
  · cases h1 : tail d with
    | none => simp [h1]
    | some t =>
      cases h2 : buffer d t with
      | none => simp [h1, h2]
      | some v => simp [h1, h2]

theorem pop_back_frame (d : FixedVecDeque α) :
    (pop_back d).elim True (fun p => p.2.cap = d.cap ∧ p.2.data = d.data) := by
  unfold pop_back
  split
  · simp
  · cases h1 : wrap_sub d.cap d.ptr 1 with
    | none => simp [h1]
    | some p =>
      cases h2 : buffer { d with ptr := p, len := d.len - 1 } p with
      | none => simp [h1, h2]
      | some v => simp [h1, h2]

/-- Claim C6: `pop_front`, `pop_back` and `clear` change only the cursor
and the logical length; every storage slot keeps exactly the value it had,
so a popped or cleared slot stays readable until the next write to it. -/
theorem pops_and_clear_touch_no_storage (d : FixedVecDeque α) :
    (pop_front d).elim True (fun p => p.2.cap = d.cap ∧ p.2.data = d.data) ∧
    (pop_back d).elim True (fun p => p.2.cap = d.cap ∧ p.2.data = d.data) ∧
    (clear d).cap = d.cap ∧ (clear d).data = d.data :=
  ⟨pop_front_frame d, pop_back_frame d, rfl, rfl⟩

/-! ### Capacity-zero behaviour (claim C3) -/

/-- Counterexample to claim C3 as stated: with `Capacity == 0`, `push_back`
executes `(ptr + 1) % 0` (a remainder-by-zero panic) and `push_front`
underflows in `wrap_sub`; neither is a no-op that leaves the container
unchanged.  `none` is the model of that failure. -/
theorem push_on_capacity_zero_fails :
    (push_back (newDeq 0 (0 : Nat))).isNone = true ∧
    (push_front (newDeq 0 (0 : Nat))).isNone = true := by
  decide

theorem push_front_capacity_zero (d : FixedVecDeque α) (h0 : d.cap = 0)
    (hl : d.len = 0) : push_front d = none := by
  unfold push_front
  rw [if_pos (by omega)]
  unfold wrap_sub
  by_cases hp : d.ptr < 1
  · rw [if_pos hp, if_pos (by omega)]
    rfl
  · rw [if_neg hp]
    simp [h0]

/-- Claim C3, amended: with `Capacity == 0` (and so the permanently empty
state), the container is empty and full simultaneously; `front`, `back`,
`get`, the pops, `remove` and `truncate` return "absent" or are no-ops with
the state unchanged — but `push_back` and `push_front` fail (remainder by
zero, resp. usize underflow) instead of being no-ops. -/
theorem capacity_zero_behavior (d : FixedVecDeque α) (h0 : d.cap = 0)
    (hl : d.len = 0) :
    is_empty d = true ∧ is_full d = true ∧
    front d = some none ∧ back d = some none ∧
    (∀ i, get d i = some none) ∧
    pop_front d = some (none, d) ∧ pop_back d = some (none, d) ∧
    (∀ i, remove d i = some (none, d)) ∧
    (∀ n, truncate d n = some d) ∧
    push_back d = none ∧ push_front d = none := by
  refine ⟨?_, ?_, ?_, ?_, ?_, ?_, ?_, ?_, ?_, ?_, ?_⟩
  · simp [is_empty, hl]
  · simp [is_full, hl, h0]
  · simp [front, hl]
  · simp [back, hl]
  · intro i
    simp [get, hl]
  · simp [pop_front, hl]
  · simp [pop_back, hl]
  · intro i
    unfold remove
    rw [if_pos (Or.inl h0)]
    rfl
  · intro n
    unfold truncate
    rw [if_neg (by omega)]
    rfl
  · unfold push_back
    simp [wrap_add, h0]
  · exact push_front_capacity_zero d h0 hl

theorem capacity_zero_behavior_witness :
    (newDeq 0 (0 : Nat)).cap = 0 ∧ (newDeq 0 (0 : Nat)).len = 0 ∧
    (is_empty (newDeq 0 (0 : Nat)) = true ∧ is_full (newDeq 0 (0 : Nat)) = true ∧
    front (newDeq 0 (0 : Nat)) = some none ∧ back (newDeq 0 (0 : Nat)) = some none ∧
    (∀ i, get (newDeq 0 (0 : Nat)) i = some none) ∧
    pop_front (newDeq 0 (0 : Nat)) = some (none, newDeq 0 (0 : Nat)) ∧
    pop_back (newDeq 0 (0 : Nat)) = some (none, newDeq 0 (0 : Nat)) ∧
    (∀ i, remove (newDeq 0 (0 : Nat)) i = some (none, newDeq 0 (0 : Nat))) ∧
    (∀ n, truncate (newDeq 0 (0 : Nat)) n = some (newDeq 0 (0 : Nat))) ∧
    push_back (newDeq 0 (0 : Nat)) = none ∧ push_front (newDeq 0 (0 : Nat)) = none) :=
  ⟨rfl, rfl, capacity_zero_behavior _ rfl rfl⟩

/-! ### Truncate (claim C9) -/

theorem toList_prefix (d d' : FixedVecDeque α) (hcap : d'.cap = d.cap)
    (hdata : d'.data = d.data) (hlen : d'.len ≤ d.len) (ht : tailN d' = tailN d) :
    toList d' = (toList d).take d'.len := by
  have h1 : (toList d').length = d'.len := toList_length d'
  have h2 : (toList d).length = d.len := toList_length d
  apply List.ext_getElem
  · rw [h1, List.length_take, h2]
    omega
  · intro n hn1 hn2
    have hn1l : n < d'.len := by rw [h1] at hn1; exact hn1
    have hn : n < (toList d).length := by rw [h2]; omega
    rw [toList_getElem d' n hn1, List.getElem_take, toList_getElem d n hn,
      hcap, hdata, ht]

theorem truncate_noop (d : FixedVecDeque α) (n : Nat) (hn : d.len ≤ n) :
    truncate d n = some d := by
  unfold truncate
  rw [if_neg (by omega)]
  rfl

theorem truncate_some (d : FixedVecDeque α) (h : WFdeq d) (n : Nat)
    (hn : n < d.len) :
    truncate d n =
      some { d with ptr := (d.ptr + (d.cap - (d.len - n))) % d.cap, len := n } := by
  unfold truncate
  rw [if_pos hn, wrap_sub_some _ _ _ h.1 (by have := h.2; omega)]
  rfl

theorem tailN_truncate (d : FixedVecDeque α) (h : WFdeq d) (n : Nat)
    (hn : n < d.len) :
    tailN { d with ptr := (d.ptr + (d.cap - (d.len - n))) % d.cap, len := n } =
      tailN d := by
  obtain ⟨hp, hl⟩ := h
  unfold tailN
  dsimp only
  rw [Nat.mod_add_mod]
  have hx : d.ptr + (d.cap - (d.len - n)) + (d.cap - n) =
      d.ptr + (d.cap - d.len) + d.cap := by omega
  rw [hx, Nat.add_mod_right]

theorem truncate_behavior (d : FixedVecDeque α) (h : WFdeq d) (n : Nat) :
    (n < d.len →
      ∃ d', truncate d n = some d' ∧ WFdeq d' ∧ d'.cap = d.cap ∧ d'.data = d.data ∧
        d'.len = n ∧
        d'.ptr =
          (((d.ptr : Int) - ((d.len : Int) - (n : Int))) % (d.cap : Int)).toNat ∧
        toList d' = (toList d).take n) ∧
    (d.len ≤ n → truncate d n = some d) := by
  refine ⟨fun hn => ?_, fun hn => truncate_noop d n hn⟩
  have hc : 0 < d.cap := Nat.lt_of_le_of_lt (Nat.zero_le _) h.1
  refine ⟨_, truncate_some d h n hn,
    ⟨Nat.mod_lt _ hc, by dsimp only; have := h.2; omega⟩, rfl, rfl, rfl, ?_, ?_⟩
  · dsimp only
    have e1 : (d.len : Int) - (n : Int) = ((d.len - n : Nat) : Int) := by omega
    rw [e1, int_sub_emod_toNat d.ptr (d.len - n) d.cap hc h.1 (by have := h.2; omega)]
  · exact toList_prefix d _ rfl rfl (by dsimp only; omega)
      (tailN_truncate d h n hn)

/-- Claim C9: `truncate(new_len)` with `new_len < len` moves the cursor to
`(head - (len - new_len)) mod Capacity` and sets `len = new_len`, keeping
the first `new_len` logical elements (truncation removes from the back
only); with `new_len ≥ len` the deque is left completely unchanged. -/
theorem truncate_spec (d : FixedVecDeque α) (h : WFdeq d) (n : Nat) :
    (n < d.len →
      ∃ d', truncate d n = some d' ∧ WFdeq d' ∧ d'.cap = d.cap ∧ d'.data = d.data ∧
        d'.len = n ∧
        d'.ptr =
          (((d.ptr : Int) - ((d.len : Int) - (n : Int))) % (d.cap : Int)).toNat ∧
        toList d' = (toList d).take n) ∧
    (d.len ≤ n → truncate d n = some d) :=
  truncate_behavior d h n

theorem truncate_spec_witness :
    WFdeq dW ∧
    (1 < dW.len ∧
      ∃ d', truncate dW 1 = some d' ∧ WFdeq d' ∧ d'.cap = dW.cap ∧ d'.data = dW.data ∧
        d'.len = 1 ∧
        d'.ptr =
          (((dW.ptr : Int) - ((dW.len : Int) - (1 : Int))) % (dW.cap : Int)).toNat ∧
        toList d' = (toList dW).take 1) :=
  ⟨by decide, by decide, (truncate_spec dW (by decide) 1).1 (by decide)⟩

/-! ### Swap (claim C8) -/

theorem swap_none (d : FixedVecDeque α) (i j : Nat)
    (hij : d.cap ≤ i ∨ d.cap ≤ j) : swap d i j = none := by
  unfold swap
  rw [if_neg (by omega)]

theorem swap_some (d : FixedVecDeque α) (h : WFdeq d) (i j : Nat)
    (hi : i < d.cap) (hj : j < d.cap) :
    swap d i j = some { d with data := fun k =>
      (if k = (tailN d + i) % d.cap then d.data ((tailN d + j) % d.cap)
      else if k = (tailN d + j) % d.cap then d.data ((tailN d + i) % d.cap)
      else d.data k) } := by
  unfold swap
  rw [if_pos ⟨hi, hj⟩, ptr_index_some d h i, ptr_index_some d h j]
  rfl

/-- Claim C8: `swap(i, j)` panics exactly when `i ≥ Capacity` or
`j ≥ Capacity`; for `i, j < Capacity` (logically vacant indices included)
it succeeds, exchanging the storage contents at physical offsets
`(tail + i) mod Capacity` and `(tail + j) mod Capacity` while leaving the
cursor and the length unchanged. -/
theorem swap_spec (d : FixedVecDeque α) (h : WFdeq d) (i j : Nat) :
    (d.cap ≤ i ∨ d.cap ≤ j → swap d i j = none) ∧
    (i < d.cap → j < d.cap →
      swap d i j = some { d with data := fun k =>
        (if k = (tailSpec d + i) % d.cap then d.data ((tailSpec d + j) % d.cap)
        else if k = (tailSpec d + j) % d.cap then d.data ((tailSpec d + i) % d.cap)
        else d.data k) }) := by
  refine ⟨swap_none d i j, fun hi hj => ?_⟩
  rw [tailSpec_eq_tailN d h]
  exact swap_some d h i j hi hj

theorem swap_spec_witness :
    WFdeq dW ∧
    swap dW 0 2 = some { dW with data := fun k =>
      (if k = (tailSpec dW + 0) % dW.cap then dW.data ((tailSpec dW + 2) % dW.cap)
      else if k = (tailSpec dW + 2) % dW.cap then
        dW.data ((tailSpec dW + 0) % dW.cap)
      else dW.data k) } :=
  ⟨by decide, (swap_spec dW (by decide) 0 2).2 (by decide) (by decide)⟩


/-! ### Push-back machinery (claims C2 and C4) -/

theorem push_back_some (d : FixedVecDeque α) (h : WFdeq d) :
    push_back d = some (d.ptr, { d with
      ptr := (d.ptr + 1) % d.cap
      len := (if d.len < d.cap then d.len + 1 else d.len) }) := by
  have hc : 0 < d.cap := Nat.lt_of_le_of_lt (Nat.zero_le _) h.1
  unfold push_back
  rw [wrap_add_pos _ _ _ hc]
  show (if d.ptr < d.cap then _ else none) = _
  rw [if_pos h.1]
  rfl

theorem push_back_assign_some (d : FixedVecDeque α) (h : WFdeq d) (v : α) :
    push_back_assign d v = some { d with
      ptr := (d.ptr + 1) % d.cap
      len := (if d.len < d.cap then d.len + 1 else d.len)
      data := fun k => (if k = d.ptr then v else d.data k) } := by
  unfold push_back_assign
  rw [push_back_some d h]
  show buffer_write _ d.ptr v = _
  unfold buffer_write
  rw [if_pos (show d.ptr < ({ d with
    ptr := (d.ptr + 1) % d.cap
    len := (if d.len < d.cap then d.len + 1 else d.len) } : FixedVecDeque α).cap
    from h.1)]

theorem toList_push_lt (d : FixedVecDeque α) (h : WFdeq d)
    (hfull : d.len < d.cap) (v : α) :
    toList { d with
      ptr := (d.ptr + 1) % d.cap
      len := d.len + 1
      data := fun k => (if k = d.ptr then v else d.data k) } =
    toList d ++ [v] := by
  obtain ⟨hp, hl⟩ := h
  have hc : 0 < d.cap := by omega
  have hptr : (tailN d + d.len) % d.cap = d.ptr := head_offset d ⟨hp, hl⟩
  have htail : tailN { d with
      ptr := (d.ptr + 1) % d.cap
      len := d.len + 1
      data := fun k => (if k = d.ptr then v else d.data k) } = tailN d := by
    unfold tailN
    dsimp only
    rw [Nat.mod_add_mod]
    congr 1
    omega
  apply List.ext_getElem
  · rw [toList_length, List.length_append, toList_length]
    rfl
  · intro j hj1 hj2
    have hj1l : j < d.len + 1 := by rw [toList_length] at hj1; exact hj1
    rw [toList_getElem _ j hj1, htail]
    dsimp only
    rcases Nat.lt_or_ge j d.len with hj | hj
    · have hne : (tailN d + j) % d.cap ≠ d.ptr := by
        rw [← hptr]
        intro he
        have := offset_inj (by omega : j < d.cap) (by omega : d.len < d.cap) he
        omega
      rw [if_neg hne]
      have hjL : j < (toList d).length := by rw [toList_length]; omega
      rw [List.getElem_append_left hjL, toList_getElem d j hjL]
    · have hj' : j = d.len := by omega
      subst hj'
      rw [if_pos hptr]
      have hL : (toList d).length ≤ d.len := le_of_eq (toList_length d)
      rw [List.getElem_append_right hL]
      simp

theorem toList_push_full (d : FixedVecDeque α) (h : WFdeq d)
    (hfull : d.len = d.cap) (v : α) :
    toList { d with
      ptr := (d.ptr + 1) % d.cap
      len := d.len
      data := fun k => (if k = d.ptr then v else d.data k) } =
    (toList d).drop 1 ++ [v] := by
  obtain ⟨hp, hl⟩ := h
  have hc : 0 < d.cap := by omega
  have htail0 : tailN d = d.ptr := by
    unfold tailN
    rw [hfull, Nat.sub_self, Nat.add_zero, Nat.mod_eq_of_lt hp]
  have htail : tailN { d with
      ptr := (d.ptr + 1) % d.cap
      len := d.len
      data := fun k => (if k = d.ptr then v else d.data k) } =
      (d.ptr + 1) % d.cap := by
    unfold tailN
    dsimp only
    rw [hfull, Nat.sub_self, Nat.add_zero, Nat.mod_eq_of_lt (Nat.mod_lt _ hc)]
  apply List.ext_getElem
  · simp only [toList_length, List.length_append, List.length_drop,
      List.length_singleton]
    omega
  · intro j hj1 hj2
    have hj1l : j < d.len := by rw [toList_length] at hj1; exact hj1
    rw [toList_getElem _ j hj1, htail]
    dsimp only
    rw [Nat.mod_add_mod]
    rcases Nat.lt_or_ge j (d.len - 1) with hj | hj
    · have hne : (d.ptr + 1 + j) % d.cap ≠ d.ptr := by
        intro he
        have he2 : (d.ptr + (1 + j)) % d.cap = (d.ptr + 0) % d.cap := by
          rw [Nat.add_zero, Nat.mod_eq_of_lt hp, ← Nat.add_assoc]
          exact he
        have := offset_inj (by omega : 1 + j < d.cap) (by omega : 0 < d.cap) he2
        omega
      rw [if_neg hne]
      have hjL : j < ((toList d).drop 1).length := by
        rw [List.length_drop, toList_length]; omega
      rw [List.getElem_append_left hjL, List.getElem_drop]
      have hjL2 : 1 + j < (toList d).length := by rw [toList_length]; omega
      rw [toList_getElem d (1 + j) hjL2, htail0, Nat.add_assoc]
    · have hj' : j = d.len - 1 := by omega
      subst hj'
      have hx : d.ptr + 1 + (d.len - 1) = d.ptr + d.cap := by omega
      rw [hx, Nat.add_mod_right, Nat.mod_eq_of_lt hp, if_pos rfl]
      have hL : ((toList d).drop 1).length ≤ d.len - 1 := by
        rw [List.length_drop, toList_length]
      rw [List.getElem_append_right hL]
      simp

theorem push_back_assign_spec (d : FixedVecDeque α) (h : WFdeq d) (v : α) :
    ∃ d', push_back_assign d v = some d' ∧ WFdeq d' ∧ d'.cap = d.cap ∧
      d'.len = min (d.len + 1) d.cap ∧
      toList d' = (toList d).drop (d.len + 1 - d.cap) ++ [v] := by
  refine ⟨_, push_back_assign_some d h v, ?_, rfl, ?_, ?_⟩
  · constructor
    · exact Nat.mod_lt _ (Nat.lt_of_le_of_lt (Nat.zero_le _) h.1)
    · dsimp only
      have := h.2
      split <;> omega
  · dsimp only
    have := h.2
    split <;> omega
  · by_cases hfull : d.len < d.cap
    · rw [if_pos hfull]
      have hz : d.len + 1 - d.cap = 0 := by omega
      rw [hz, List.drop_zero]
      exact toList_push_lt d h hfull v
    · have hfull' : d.len = d.cap := by have := h.2; omega
      rw [if_neg hfull]
      have hz : d.len + 1 - d.cap = 1 := by
        have hc : 0 < d.cap := Nat.lt_of_le_of_lt (Nat.zero_le _) h.1
        omega
      rw [hz]
      exact toList_push_full d h hfull' v

theorem drop_append_drop (L M : List α) (a b : Nat) (ha : a ≤ L.length) :
    (L.drop a ++ M).drop b = (L ++ M).drop (a + b) := by
  rw [List.drop_append_eq_append_drop, List.drop_append_eq_append_drop,
    List.drop_drop, List.length_drop]
  congr 2 <;> omega

theorem extend_some (xs : List α) : ∀ d : FixedVecDeque α, WFdeq d →
    ∃ d', extend d xs = some d' ∧ WFdeq d' ∧ d'.cap = d.cap ∧
      d'.len = min (d.len + xs.length) d.cap ∧
      toList d' = (toList d ++ xs).drop (d.len + xs.length - d.cap) := by
  induction xs with
  | nil =>
    intro d h
    refine ⟨d, rfl, h, rfl, ?_, ?_⟩
    · have := h.2
      simp only [List.length_nil]
      omega
    · have := h.2
      simp only [List.length_nil, List.append_nil, Nat.add_zero]
      rw [(by omega : d.len - d.cap = 0), List.drop_zero]
  | cons x xs ih =>
    intro d h
    obtain ⟨d1, he1, hw1, hc1, hl1, ht1⟩ := push_back_assign_spec d h x
    obtain ⟨d2, he2, hw2, hc2, hl2, ht2⟩ := ih d1 hw1
    refine ⟨d2, ?_, hw2, by rw [hc2, hc1], ?_, ?_⟩
    · show (push_back_assign d x).bind _ = _
      rw [he1]
      exact he2
    · rw [hl2, hl1, hc1, List.length_cons]
      omega
    · rw [ht2, ht1]
      rw [List.append_assoc, List.singleton_append]
      have h1 := h.1
      have h2 := h.2
      have ha : d.len + 1 - d.cap ≤ (toList d).length := by
        rw [toList_length]
        omega
      rw [drop_append_drop (toList d) (x :: xs) (d.len + 1 - d.cap)
        (d1.len + xs.length - d1.cap) ha]
      congr 1
      rw [hl1, hc1, List.length_cons]
      have := h.2
      omega

/-! ### Front and back as views of the logical sequence -/

theorem toList_eq_nil (d : FixedVecDeque α) (he : d.len = 0) : toList d = [] := by
  have hz : (toList d).length = 0 := by rw [toList_length, he]
  exact List.eq_nil_of_length_eq_zero hz

theorem front_head (d : FixedVecDeque α) (h : WFdeq d) :
    front d = some (toList d).head? := by
  have hc : 0 < d.cap := Nat.lt_of_le_of_lt (Nat.zero_le _) h.1
  unfold front
  by_cases he : d.len = 0
  · rw [if_pos he, toList_eq_nil d he]
    rfl
  · rw [if_neg he, tail_some d h]
    show (buffer d (tailN d)).bind _ = _
    rw [buffer_some d _ (tailN_lt d hc)]
    have hlen : 0 < (toList d).length := by rw [toList_length]; omega
    rw [List.head?_eq_getElem?, List.getElem?_eq_getElem hlen,
      toList_getElem d 0 hlen, Nat.add_zero, Nat.mod_eq_of_lt (tailN_lt d hc)]
    rfl

theorem back_getLast (d : FixedVecDeque α) (h : WFdeq d) :
    back d = some (toList d).getLast? := by
  have hc : 0 < d.cap := Nat.lt_of_le_of_lt (Nat.zero_le _) h.1
  unfold back
  by_cases he : d.len = 0
  · rw [if_pos he, toList_eq_nil d he]
    rfl
  · rw [if_neg he, wrap_sub_some _ _ _ h.1 (by omega)]
    show (buffer d ((d.ptr + (d.cap - 1)) % d.cap)).bind _ = _
    rw [buffer_some d _ (Nat.mod_lt _ hc)]
    have hlen : (toList d).length - 1 < (toList d).length := by
      rw [toList_length]; omega
    rw [List.getLast?_eq_getElem?, List.getElem?_eq_getElem hlen,
      toList_getElem d _ hlen, toList_length]
    unfold tailN
    rw [Nat.mod_add_mod]
    have hx : d.ptr + (d.cap - d.len) + (d.len - 1) = d.ptr + (d.cap - 1) := by
      have := h.2
      omega
    rw [hx]
    rfl

/-- Claim C2: pushing the values of `xs` one by one with `push_back` into
an empty deque of positive capacity: if `|xs| ≤ Capacity` then the length
is `|xs|` and `front`/`back` are the first/last pushed values; if
`|xs| > Capacity` the length is `Capacity` and the logical sequence is
exactly the last `Capacity` pushed values in push order. -/
theorem push_back_sequence_spec (d : FixedVecDeque α) (h : WFdeq d)
    (he : d.len = 0) (xs : List α) :
    ∃ d', extend d xs = some d' ∧
      (xs.length ≤ d.cap →
        d'.len = xs.length ∧ front d' = some xs.head? ∧
        back d' = some xs.getLast?) ∧
      (d.cap < xs.length →
        d'.len = d.cap ∧ toList d' = xs.drop (xs.length - d.cap)) := by
  obtain ⟨d', he', hw', hc', hl', ht'⟩ := extend_some xs d h
  rw [he] at hl' ht'
  rw [toList_eq_nil d he, List.nil_append] at ht'
  rw [Nat.zero_add] at hl' ht'
  have hd : toList d' = xs.drop (xs.length - d.cap) := ht'
  refine ⟨d', he', fun hle => ?_, fun hgt => ?_⟩
  · have hz : xs.length - d.cap = 0 := by omega
    rw [hz, List.drop_zero] at hd
    refine ⟨by rw [hl']; omega, ?_, ?_⟩
    · rw [front_head d' hw', hd]
    · rw [back_getLast d' hw', hd]
  · exact ⟨by rw [hl']; omega, hd⟩

theorem push_back_sequence_spec_witness :
    WFdeq (newDeq 2 (0 : Nat)) ∧ (newDeq 2 (0 : Nat)).len = 0 ∧
    (∃ d', extend (newDeq 2 (0 : Nat)) [5, 6, 7] = some d' ∧
      (([5, 6, 7] : List Nat).length ≤ (newDeq 2 (0 : Nat)).cap →
        d'.len = ([5, 6, 7] : List Nat).length ∧
        front d' = some ([5, 6, 7] : List Nat).head? ∧
        back d' = some ([5, 6, 7] : List Nat).getLast?) ∧
      ((newDeq 2 (0 : Nat)).cap < ([5, 6, 7] : List Nat).length →
        d'.len = (newDeq 2 (0 : Nat)).cap ∧
        toList d' =
          ([5, 6, 7] : List Nat).drop
            (([5, 6, 7] : List Nat).length - (newDeq 2 (0 : Nat)).cap))) :=
  ⟨by decide, rfl, push_back_sequence_spec (newDeq 2 (0 : Nat)) (by decide) rfl _⟩

theorem resize_behavior (d : FixedVecDeque α) (h : WFdeq d) (new_len : Nat) (v : α) :
    (d.cap ≤ new_len → resize d new_len v = none) ∧
    (new_len < d.cap →
      ∃ d', resize d new_len v = some d' ∧ WFdeq d' ∧ d'.cap = d.cap ∧
        d'.len = new_len ∧
        toList d' = (toList d).take new_len ++ List.replicate (new_len - d.len) v) := by
  constructor
  · intro hge
    unfold resize
    rw [if_neg (by omega)]
  · intro hlt
    unfold resize
    rw [if_pos hlt]
    by_cases hg : d.len < new_len
    · rw [if_pos hg]
      obtain ⟨d', he', hw', hc', hl', ht'⟩ :=
        extend_some (List.replicate (new_len - d.len) v) d h
      refine ⟨d', he', hw', hc', ?_, ?_⟩
      · rw [hl', List.length_replicate]
        omega
      · rw [ht', List.length_replicate]
        have hz : d.len + (new_len - d.len) - d.cap = 0 := by omega
        rw [hz, List.drop_zero]
        congr 1
        refine (List.take_of_length_le ?_).symm
        rw [toList_length]
        omega
    · rw [if_neg hg]
      by_cases hq : new_len < d.len
      · obtain ⟨d', ht1, hw', hc', hd', hl', hp', htl⟩ :=
          (truncate_behavior d h new_len).1 hq
        refine ⟨d', ht1, hw', hc', hl', ?_⟩
        rw [htl, (by omega : new_len - d.len = 0), List.replicate_zero,
          List.append_nil]
      · have hq2 : new_len = d.len := by omega
        rw [truncate_noop d new_len (by omega)]
        refine ⟨d, rfl, h, rfl, hq2.symm, ?_⟩
        rw [(by omega : new_len - d.len = 0), List.replicate_zero,
          List.append_nil]
        refine (List.take_of_length_le ?_).symm
        rw [toList_length]
        omega

/-- Claim C4: `resize(new_len, value)` panics exactly when
`new_len ≥ Capacity`; for every `new_len < Capacity` it succeeds, the new
length is `new_len`, the first `min(old len, new_len)` logical elements
are unchanged and every appended element equals `value`. -/
theorem resize_spec (d : FixedVecDeque α) (h : WFdeq d) (new_len : Nat) (v : α) :
    (d.cap ≤ new_len → resize d new_len v = none) ∧
    (new_len < d.cap →
      ∃ d', resize d new_len v = some d' ∧ WFdeq d' ∧ d'.cap = d.cap ∧
        d'.len = new_len ∧
        toList d' = (toList d).take new_len ++ List.replicate (new_len - d.len) v) :=
  resize_behavior d h new_len v

theorem resize_spec_witness :
    WFdeq dW ∧ (2 < dW.cap ∧
      ∃ d', resize dW 2 9 = some d' ∧ WFdeq d' ∧ d'.cap = dW.cap ∧
        d'.len = 2 ∧
        toList d' = (toList dW).take 2 ++ List.replicate (2 - dW.len) 9) :=
  ⟨by decide, by decide, (resize_spec dW (by decide) 2 9).2 (by decide)⟩

/-! ### Slice projection (claim C5) -/

theorem splitAtChecked_some (l : List α) (i : Nat) (hi : i ≤ l.length) :
    splitAtChecked l i = some (l.take i, l.drop i) := by
  unfold splitAtChecked
  rw [if_pos hi]

theorem sliceOf_some (l : List α) (lo hi : Nat) (h1 : lo ≤ hi)
    (h2 : hi ≤ l.length) : sliceOf l lo hi = some ((l.take hi).drop lo) := by
  unfold sliceOf
  rw [if_pos ⟨h1, h2⟩]

theorem tailN_full (d : FixedVecDeque α) (h : WFdeq d) (hfull : d.len = d.cap) :
    tailN d = d.ptr := by
  unfold tailN
  rw [hfull, Nat.sub_self, Nat.add_zero, Nat.mod_eq_of_lt h.1]

theorem tail_add_len_of_contiguous (d : FixedVecDeque α) (h : WFdeq d)
    (hfull : d.len ≠ d.cap) (hcont : tailN d ≤ d.ptr) :
    tailN d + d.len = d.ptr := by
  obtain ⟨hp, hl⟩ := h
  rcases Nat.lt_or_ge (d.ptr + (d.cap - d.len)) d.cap with hx | hx
  · have ht : tailN d = d.ptr + (d.cap - d.len) := by
      unfold tailN
      rw [Nat.mod_eq_of_lt hx]
    omega
  · have he : d.ptr + (d.cap - d.len) = (d.ptr - d.len) + d.cap := by omega
    have ht : tailN d = d.ptr - d.len := by
      unfold tailN
      rw [he, Nat.add_mod_right, Nat.mod_eq_of_lt (by omega)]
    omega

theorem tail_add_len_of_wrapped (d : FixedVecDeque α) (h : WFdeq d)
    (hwrap : d.ptr < tailN d) :
    tailN d + d.len = d.ptr + d.cap := by
  obtain ⟨hp, hl⟩ := h
  rcases Nat.lt_or_ge (d.ptr + (d.cap - d.len)) d.cap with hx | hx
  · have ht : tailN d = d.ptr + (d.cap - d.len) := by
      unfold tailN
      rw [Nat.mod_eq_of_lt hx]
    omega
  · have he : d.ptr + (d.cap - d.len) = (d.ptr - d.len) + d.cap := by omega
    have ht : tailN d = d.ptr - d.len := by
      unfold tailN
      rw [he, Nat.add_mod_right, Nat.mod_eq_of_lt (by omega)]
    omega

theorem as_slices_append (d : FixedVecDeque α) (h : WFdeq d) :
    ∃ a b, as_slices d = some (a, b) ∧ a ++ b = toList d := by
  obtain ⟨hp, hl⟩ := h
  have hc : 0 < d.cap := by omega
  have hbuf : (physList d).length = d.cap := physList_length d
  unfold as_slices
  by_cases hfull : d.len = d.cap
  · rw [if_pos hfull]
    rw [splitAtChecked_some _ _ (by rw [hbuf]; omega)]
    refine ⟨(physList d).drop d.ptr, (physList d).take d.ptr, rfl, ?_⟩
    have ht0 : tailN d = d.ptr := tailN_full d ⟨hp, hl⟩ hfull
    apply List.ext_getElem
    · rw [List.length_append, List.length_drop, List.length_take, toList_length,
        hbuf, hfull]
      omega
    · intro i h1 h2
      have hi : i < d.cap := by
        rw [toList_length, hfull] at h2
        exact h2
      rw [toList_getElem d i h2, ht0]
      by_cases hcase : i < d.cap - d.ptr
      · have hb : i < ((physList d).drop d.ptr).length := by
          rw [List.length_drop, hbuf]
          omega
        rw [List.getElem_append_left hb, List.getElem_drop]
        have hb2 : d.ptr + i < (physList d).length := by rw [hbuf]; omega
        rw [physList_getElem d _ hb2, Nat.mod_eq_of_lt (by omega)]
      · have hb : ((physList d).drop d.ptr).length ≤ i := by
          rw [List.length_drop, hbuf]
          omega
        rw [List.getElem_append_right hb, List.getElem_take]
        simp only [List.length_drop, hbuf]
        have hb2 : i - (d.cap - d.ptr) < (physList d).length := by
          rw [hbuf]; omega
        rw [physList_getElem d _ hb2]
        have he : d.ptr + i = (i - (d.cap - d.ptr)) + d.cap := by omega
        rw [he, Nat.add_mod_right, Nat.mod_eq_of_lt (by omega)]
  · rw [if_neg hfull, wrap_sub_some _ _ _ hp hl]
    show ∃ a b, ring_slices (physList d) d.ptr (tailN d) = some (a, b) ∧
      a ++ b = toList d
    have htlt : tailN d < d.cap := tailN_lt d hc
    by_cases hcont : tailN d ≤ d.ptr
    · have hsum := tail_add_len_of_contiguous d ⟨hp, hl⟩ hfull hcont
      unfold ring_slices
      rw [if_pos hcont,
        sliceOf_some _ _ _ hcont (by rw [hbuf]; omega)]
      refine ⟨((physList d).take d.ptr).drop (tailN d), [], rfl, ?_⟩
      rw [List.append_nil]
      apply List.ext_getElem
      · rw [List.length_drop, List.length_take, hbuf, toList_length]
        omega
      · intro i h1 h2
        have hi : i < d.len := by rw [toList_length] at h2; exact h2
        rw [toList_getElem d i h2, List.getElem_drop, List.getElem_take]
        have hb2 : tailN d + i < (physList d).length := by rw [hbuf]; omega
        rw [physList_getElem d _ hb2, Nat.mod_eq_of_lt (by omega)]
    · have hwrap : d.ptr < tailN d := by omega
      have hsum := tail_add_len_of_wrapped d ⟨hp, hl⟩ hwrap
      unfold ring_slices
      rw [if_neg (by omega)]
      rw [splitAtChecked_some _ _ (by rw [hbuf]; omega)]
      show ∃ a b,
        (splitAtChecked ((physList d).take (tailN d)) d.ptr).bind _ = some (a, b) ∧
        a ++ b = toList d
      rw [splitAtChecked_some _ _ (by rw [List.length_take, hbuf]; omega)]
      refine ⟨(physList d).drop (tailN d),
        ((physList d).take (tailN d)).take d.ptr, rfl, ?_⟩
      apply List.ext_getElem
      · rw [List.length_append, List.length_drop, List.length_take,
          List.length_take, toList_length, hbuf]
        omega
      · intro i h1 h2
        have hi : i < d.len := by rw [toList_length] at h2; exact h2
        rw [toList_getElem d i h2]
        by_cases hcase : i < d.cap - tailN d
        · have hb : i < ((physList d).drop (tailN d)).length := by
            rw [List.length_drop, hbuf]
            omega
          rw [List.getElem_append_left hb, List.getElem_drop]
          have hb2 : tailN d + i < (physList d).length := by rw [hbuf]; omega
          rw [physList_getElem d _ hb2, Nat.mod_eq_of_lt (by omega)]
        · have hb : ((physList d).drop (tailN d)).length ≤ i := by
            rw [List.length_drop, hbuf]
            omega
          rw [List.getElem_append_right hb, List.getElem_take, List.getElem_take]
          simp only [List.length_drop, hbuf]
          have hb2 : i - (d.cap - tailN d) < (physList d).length := by
            rw [hbuf]; omega
          rw [physList_getElem d _ hb2]
          have he : tailN d + i = (i - (d.cap - tailN d)) + d.cap := by omega
          rw [he, Nat.add_mod_right, Nat.mod_eq_of_lt (by omega)]

/-- Claim C5: for every well-formed deque state — full, partial, and any
head rotation — `as_slices` succeeds and the concatenation of its two
slices, first then second, is exactly the logical front-to-back
sequence. -/
theorem as_slices_reconstructs (d : FixedVecDeque α) (h : WFdeq d) :
    ∃ a b, as_slices d = some (a, b) ∧ a ++ b = toList d :=
  as_slices_append d h

theorem as_slices_reconstructs_witness :
    WFdeq dW ∧ ∃ a b, as_slices dW = some (a, b) ∧ a ++ b = toList dW :=
  ⟨by decide, as_slices_reconstructs dW (by decide)⟩

/-! ### Structural equality (claim C7) -/

theorem append3_eq_iff (a1 a2 a3 b1 b2 b3 : List α)
    (hl1 : a1.length = b1.length) (hl2 : a2.length = b2.length) :
    a1 ++ (a2 ++ a3) = b1 ++ (b2 ++ b3) ↔ a1 = b1 ∧ a2 = b2 ∧ a3 = b3 := by
  constructor
  · intro h
    obtain ⟨e1, h23⟩ := List.append_inj h hl1
    obtain ⟨e2, e3⟩ := List.append_inj h23 hl2
    exact ⟨e1, e2, e3⟩
  · rintro ⟨rfl, rfl, rfl⟩
    rfl

theorem sliceCmp_spec [DecidableEq α] (sa sb oa ob : List α)
    (hsum : sa.length + sb.length = oa.length + ob.length) :
    ∃ b, sliceCmp sa sb oa ob = some b ∧
      (b = true ↔ sa ++ sb = oa ++ ob) := by
  unfold sliceCmp
  by_cases h1 : sa.length = oa.length
  · rw [if_pos h1]
    refine ⟨_, rfl, ?_⟩
    rw [Bool.and_eq_true, decide_eq_true_iff, decide_eq_true_iff]
    constructor
    · rintro ⟨rfl, rfl⟩
      rfl
    · intro h
      exact List.append_inj h h1
  · by_cases h2 : sa.length < oa.length
    · rw [if_neg h1, if_pos h2]
      dsimp only
      have hmid : oa.length - sa.length ≤ sb.length := by omega
      rw [splitAtChecked_some oa sa.length (Nat.le_of_lt h2),
        splitAtChecked_some sb (oa.length - sa.length) hmid]
      refine ⟨_, rfl, ?_⟩
      rw [Bool.and_eq_true, Bool.and_eq_true, decide_eq_true_iff,
        decide_eq_true_iff, decide_eq_true_iff]
      have hd1 : sa ++ sb = sa ++ (sb.take (oa.length - sa.length) ++
          sb.drop (oa.length - sa.length)) := by
        rw [List.take_append_drop]
      have hd2 : oa ++ ob = oa.take sa.length ++ (oa.drop sa.length ++ ob) := by
        rw [← List.append_assoc, List.take_append_drop]
      rw [hd1, hd2, append3_eq_iff _ _ _ _ _ _
        (by rw [List.length_take]; omega)
        (by rw [List.length_take, List.length_drop]; omega)]
      tauto
    · rw [if_neg h1, if_neg h2]
      dsimp only
      have hmid : sa.length - oa.length ≤ ob.length := by omega
      rw [splitAtChecked_some sa oa.length (by omega),
        splitAtChecked_some ob (sa.length - oa.length) hmid]
      refine ⟨_, rfl, ?_⟩
      rw [Bool.and_eq_true, Bool.and_eq_true, decide_eq_true_iff,
        decide_eq_true_iff, decide_eq_true_iff]
      have hd1 : sa ++ sb = sa.take oa.length ++ (sa.drop oa.length ++ sb) := by
        rw [← List.append_assoc, List.take_append_drop]
      have hd2 : oa ++ ob = oa ++ (ob.take (sa.length - oa.length) ++
          ob.drop (sa.length - oa.length)) := by
        rw [List.take_append_drop]
      rw [hd1, hd2, append3_eq_iff _ _ _ _ _ _
        (by rw [List.length_take]; omega)
        (by rw [List.length_drop, List.length_take]; omega)]
      tauto

theorem deqEq_some [DecidableEq α] (d e : FixedVecDeque α) (hd : WFdeq d)
    (he : WFdeq e) :
    ∃ b, deqEq d e = some b ∧
      (b = true ↔ (d.len = e.len ∧ toList d = toList e)) := by
  obtain ⟨sa, sb, hsa, hsab⟩ := as_slices_append d hd
  obtain ⟨oa, ob, hoa, hoab⟩ := as_slices_append e he
  unfold deqEq
  by_cases hlen : d.len = e.len
  · rw [if_neg (not_not_intro hlen), hsa, hoa]
    show ∃ b, sliceCmp sa sb oa ob = some b ∧ _
    have hsum : sa.length + sb.length = oa.length + ob.length := by
      have e1 : (sa ++ sb).length = (toList d).length := by rw [hsab]
      have e2 : (oa ++ ob).length = (toList e).length := by rw [hoab]
      rw [List.length_append] at e1 e2
      rw [toList_length] at e1 e2
      omega
    obtain ⟨b, hb, hiff⟩ := sliceCmp_spec sa sb oa ob hsum
    refine ⟨b, hb, ?_⟩
    rw [hiff, hsab, hoab]
    constructor
    · intro hx
      exact ⟨hlen, hx⟩
    · intro hx
      exact hx.2
  · rw [if_pos hlen]
    refine ⟨false, rfl, ?_⟩
    constructor
    · intro hx
      exact (Bool.false_ne_true hx).elim
    · intro hx
      exact absurd hx.1 hlen

/-- A second concrete deque for the equality witness: capacity 4, wrapped
layout, same logical contents `[0, 1]` as `dW`. -/
def dW2 : FixedVecDeque Nat := ⟨4, 1, 2, fun k => if k = 3 then 0 else 1⟩

/-- Claim C7: equality of two deques — capacities may differ — holds
exactly when the lengths agree and the logical front-to-back sequences
are equal; the verdict depends only on the logical sequences, never on
the physical layout. -/
theorem deqEq_spec [DecidableEq α] (d e : FixedVecDeque α) (hd : WFdeq d)
    (he : WFdeq e) :
    ∃ b, deqEq d e = some b ∧
      (b = true ↔ (d.len = e.len ∧ toList d = toList e)) :=
  deqEq_some d e hd he

theorem deqEq_spec_witness :
    WFdeq dW ∧ WFdeq dW2 ∧
    ∃ b, deqEq dW dW2 = some b ∧
      (b = true ↔ (dW.len = dW2.len ∧ toList dW = toList dW2)) :=
  ⟨by decide, by decide, deqEq_spec dW dW2 (by decide) (by decide)⟩

/-! ### Invariant preservation helpers (claim C10) -/

theorem is_contiguous_some (d : FixedVecDeque α) (h : WFdeq d) :
    is_contiguous d = some (d.len != d.cap && decide (tailN d ≤ d.ptr)) := by
  unfold is_contiguous
  rw [tail_some d h]
  rfl

theorem buffer_read_some (d : FixedVecDeque α) (k : Nat) (hk : k < d.cap) :
    buffer_read d k = some (d.data k) := by
  simp [buffer_read, hk]

theorem wrap_sub_lt (sz idx sub r : Nat) (h : wrap_sub sz idx sub = some r)
    (hidx : idx < sz) : r < sz := by
  unfold wrap_sub at h
  by_cases h1 : idx < sub
  · rw [if_pos h1] at h
    by_cases h2 : sz < sub - idx
    · rw [if_pos h2] at h
      cases h
    · rw [if_neg h2] at h
      injection h with h
      omega
  · rw [if_neg h1] at h
    injection h with h
    omega

theorem copy_fields (d : FixedVecDeque α) (dst src n : Nat)
    (d' : FixedVecDeque α) (h : copy d dst src n = some d') :
    d'.cap = d.cap ∧ d'.ptr = d.ptr ∧ d'.len = d.len := by
  unfold copy at h
  split at h
  · injection h with h
    subst h
    exact ⟨rfl, rfl, rfl⟩
  · cases h

theorem buffer_write_fields (d : FixedVecDeque α) (off : Nat) (v : α)
    (d' : FixedVecDeque α) (h : buffer_write d off v = some d') :
    d'.cap = d.cap ∧ d'.ptr = d.ptr ∧ d'.len = d.len := by
  unfold buffer_write at h
  split at h
  · injection h with h
    subst h
    exact ⟨rfl, rfl, rfl⟩
  · cases h

theorem swap_fields (d : FixedVecDeque α) (i j : Nat) (d' : FixedVecDeque α)
    (h : swap d i j = some d') :
    d'.cap = d.cap ∧ d'.ptr = d.ptr ∧ d'.len = d.len := by
  unfold swap at h
  split at h
  · rcases hri : ptr_index d i with _ | ri
    · rw [hri] at h
      simp only [Option.bind_eq_bind, Option.none_bind] at h
      exact Option.noConfusion h
    · rw [hri] at h
      rcases hrj : ptr_index d j with _ | rj
      · rw [hrj] at h
        simp only [Option.bind_eq_bind, Option.some_bind, Option.none_bind] at h
        exact Option.noConfusion h
      · rw [hrj] at h
        simp only [Option.pure_def, Option.bind_eq_bind, Option.some_bind] at h
        injection h with h
        subst h
        exact ⟨rfl, rfl, rfl⟩
  · cases h

theorem pop_front_empty (d : FixedVecDeque α) (he : d.len = 0) :
    pop_front d = some (none, d) := by
  unfold pop_front
  rw [if_pos he]
  rfl

theorem pop_front_some_of_ne (d : FixedVecDeque α) (h : WFdeq d)
    (hne : d.len ≠ 0) :
    pop_front d =
      some (some (d.data (tailN d)), { d with len := d.len - 1 }) := by
  have hc : 0 < d.cap := Nat.lt_of_le_of_lt (Nat.zero_le _) h.1
  unfold pop_front
  rw [if_neg hne, tail_some d h]
  show (buffer d (tailN d)).bind _ = _
  rw [buffer_some d _ (tailN_lt d hc)]
  rfl

theorem pop_back_empty (d : FixedVecDeque α) (he : d.len = 0) :
    pop_back d = some (none, d) := by
  unfold pop_back
  rw [if_pos he]
  rfl

theorem pop_back_some_of_ne (d : FixedVecDeque α) (h : WFdeq d)
    (hne : d.len ≠ 0) :
    pop_back d = some (some (d.data ((d.ptr + (d.cap - 1)) % d.cap)),
      { d with ptr := (d.ptr + (d.cap - 1)) % d.cap, len := d.len - 1 }) := by
  have hc : 0 < d.cap := Nat.lt_of_le_of_lt (Nat.zero_le _) h.1
  unfold pop_back
  rw [if_neg hne, wrap_sub_some _ _ _ h.1 (by omega)]
  show (buffer
    { d with
      ptr := (d.ptr + (d.cap - 1)) % d.cap
      len := d.len - 1 }
    ((d.ptr + (d.cap - 1)) % d.cap)).bind _ = _
  rw [buffer_some _ _ (show (d.ptr + (d.cap - 1)) % d.cap <
    ({ d with
      ptr := (d.ptr + (d.cap - 1)) % d.cap
      len := d.len - 1 } : FixedVecDeque α).cap from Nat.mod_lt _ hc)]
  rfl

theorem push_front_some_full (d : FixedVecDeque α) (h : WFdeq d)
    (hfull : d.len = d.cap) :
    push_front d = some ((d.ptr + (d.cap - 1)) % d.cap,
      { d with ptr := (d.ptr + (d.cap - 1)) % d.cap }) := by
  have hc : 0 < d.cap := Nat.lt_of_le_of_lt (Nat.zero_le _) h.1
  unfold push_front
  rw [if_pos hfull, wrap_sub_some _ _ _ h.1 (by omega)]
  show (if (d.ptr + (d.cap - 1)) % d.cap < d.cap then _ else none) = _
  rw [if_pos (Nat.mod_lt _ hc)]
  rfl

theorem push_front_some_nonfull (d : FixedVecDeque α) (h : WFdeq d)
    (hfull : d.len ≠ d.cap) :
    push_front d = some (tailN { d with len := d.len + 1 },
      { d with len := d.len + 1 }) := by
  have hc : 0 < d.cap := Nat.lt_of_le_of_lt (Nat.zero_le _) h.1
  have h2 : WFdeq { d with len := d.len + 1 } := by
    constructor
    · exact h.1
    · show d.len + 1 ≤ d.cap
      have := h.2
      omega
  unfold push_front
  rw [if_neg hfull]
  show (tail { d with len := d.len + 1 }).bind _ = _
  rw [tail_some _ h2]
  show (if tailN { d with len := d.len + 1 } < d.cap then _ else none) = _
  have hlt : tailN { d with len := d.len + 1 } < d.cap := tailN_lt _ hc
  rw [if_pos hlt]
  rfl

theorem wf_push_back (d : FixedVecDeque α) (h : WFdeq d) :
    ∀ p, push_back d = some p → WFdeq p.2 := by
  intro p hp
  rw [push_back_some d h] at hp
  injection hp with hp
  subst hp
  refine ⟨Nat.mod_lt _ (Nat.lt_of_le_of_lt (Nat.zero_le _) h.1), ?_⟩
  dsimp only
  have := h.2
  split <;> omega

theorem wf_push_front (d : FixedVecDeque α) (h : WFdeq d) :
    ∀ p, push_front d = some p → WFdeq p.2 := by
  intro p hp
  have hc : 0 < d.cap := Nat.lt_of_le_of_lt (Nat.zero_le _) h.1
  by_cases hfull : d.len = d.cap
  · rw [push_front_some_full d h hfull] at hp
    injection hp with hp
    subst hp
    exact ⟨Nat.mod_lt _ hc, h.2⟩
  · rw [push_front_some_nonfull d h hfull] at hp
    injection hp with hp
    subst hp
    exact ⟨h.1, by have := h.2; dsimp only; omega⟩

theorem wf_pop_front (d : FixedVecDeque α) (h : WFdeq d) :
    ∀ p, pop_front d = some p → WFdeq p.2 := by
  intro p hp
  by_cases he : d.len = 0
  · rw [pop_front_empty d he] at hp
    injection hp with hp
    subst hp
    exact h
  · rw [pop_front_some_of_ne d h he] at hp
    injection hp with hp
    subst hp
    exact ⟨h.1, by have := h.2; dsimp only; omega⟩

theorem wf_pop_back (d : FixedVecDeque α) (h : WFdeq d) :
    ∀ p, pop_back d = some p → WFdeq p.2 := by
  intro p hp
  have hc : 0 < d.cap := Nat.lt_of_le_of_lt (Nat.zero_le _) h.1
  by_cases he : d.len = 0
  · rw [pop_back_empty d he] at hp
    injection hp with hp
    subst hp
    exact h
  · rw [pop_back_some_of_ne d h he] at hp
    injection hp with hp
    subst hp
    exact ⟨Nat.mod_lt _ hc, by have := h.2; dsimp only; omega⟩

theorem wf_truncate (d : FixedVecDeque α) (h : WFdeq d) :
    ∀ n d', truncate d n = some d' → WFdeq d' := by
  intro n d' hd
  by_cases hn : n < d.len
  · obtain ⟨d2, he2, hw2, _⟩ := (truncate_behavior d h n).1 hn
    rw [he2] at hd
    injection hd with hd
    subst hd
    exact hw2
  · rw [truncate_noop d n (by omega)] at hd
    injection hd with hd
    subst hd
    exact h

theorem wf_swap (d : FixedVecDeque α) (h : WFdeq d) :
    ∀ i j d', swap d i j = some d' → WFdeq d' := by
  intro i j d' hd
  obtain ⟨hc, hp, hl⟩ := swap_fields d i j d' hd
  exact ⟨by rw [hp, hc]; exact h.1, by rw [hl, hc]; exact h.2⟩

theorem wf_resize (d : FixedVecDeque α) (h : WFdeq d) :
    ∀ n v d', resize d n v = some d' → WFdeq d' := by
  intro n v d' hd
  by_cases hn : n < d.cap
  · obtain ⟨d2, he2, hw2, _⟩ := (resize_behavior d h n v).2 hn
    rw [he2] at hd
    injection hd with hd
    subst hd
    exact hw2
  · rw [(resize_behavior d h n v).1 (by omega)] at hd
    cases hd

theorem get_position (d : FixedVecDeque α) (h : WFdeq d) (i : Nat)
    (hi : i < d.len) :
    get d i = some (some (d.data ((tailSpec d + i) % d.cap))) := by
  have hc : 0 < d.cap := Nat.lt_of_le_of_lt (Nat.zero_le _) h.1
  unfold get
  rw [if_pos hi, ptr_index_some d h, tailSpec_eq_tailN d h]
  show (buffer d ((tailN d + i) % d.cap)).bind _ = _
  rw [buffer_some d _ (Nat.mod_lt _ hc)]
  rfl

theorem wf_remove_finish (d1 : FixedVecDeque α) (w : Nat) (tmp : α)
    (p : Option α × FixedVecDeque α)
    (hp : (buffer_write { d1 with len := d1.len - 1 } w tmp).bind
      (fun dm => (buffer dm w).bind fun v => pure (some v, dm)) = some p)
    (hptr : d1.ptr < d1.cap) (hlen : d1.len ≤ d1.cap + 1) : WFdeq p.2 := by
  rcases hw : buffer_write { d1 with len := d1.len - 1 } w tmp with _ | dm
  · rw [hw] at hp
    simp only [Option.none_bind] at hp
    exact Option.noConfusion hp
  · rw [hw] at hp
    simp only [Option.pure_def, Option.some_bind] at hp
    rcases hb : buffer dm w with _ | v
    · rw [hb] at hp
      simp only [Option.none_bind] at hp
      exact Option.noConfusion hp
    · rw [hb] at hp
      simp only [Option.some_bind] at hp
      injection hp with hp
      subst hp
      obtain ⟨f1, f2, f3⟩ := buffer_write_fields _ _ _ _ hw
      constructor
      · show dm.ptr < dm.cap
        rw [f1, f2]
        exact hptr
      · show dm.len ≤ dm.cap
        rw [f1, f3]
        show d1.len - 1 ≤ d1.cap
        omega

theorem remove_absent (d : FixedVecDeque α) (i : Nat)
    (h0 : d.cap = 0 ∨ d.len ≤ i) : remove d i = some (none, d) := by
  unfold remove
  rw [if_pos h0]
  rfl

theorem remove_step_wf (d : FixedVecDeque α) (h : WFdeq d)
    (index idx t : Nat) (contiguous : Bool) (dth : Nat)
    (st : FixedVecDeque α × Nat)
    (hs : remove_step d index idx d.ptr t contiguous dth = some st)
    (ht : t < d.cap) :
    st.1.cap = d.cap ∧ st.1.len = d.len ∧ st.1.ptr < d.cap := by
  unfold remove_step at hs
  split at hs
  · rcases hc1 : copy d (t + 1) t index with _ | d1
    · rw [hc1] at hs
      simp only [Option.bind_eq_bind, Option.none_bind] at hs
      exact Option.noConfusion hs
    · rw [hc1] at hs
      simp only [Option.pure_def, Option.bind_eq_bind, Option.some_bind] at hs
      injection hs with hs
      subst hs
      obtain ⟨f1, f2, f3⟩ := copy_fields _ _ _ _ _ hc1
      exact ⟨f1, f3, by rw [f2]; exact h.1⟩
  · split at hs
    · split at hs
      · rcases hc1 : copy d idx (idx + 1) (d.ptr - idx - 1) with _ | d1
        · rw [hc1] at hs
          simp only [Option.bind_eq_bind, Option.none_bind] at hs
          exact Option.noConfusion hs
        · rw [hc1] at hs
          simp only [Option.pure_def, Option.bind_eq_bind, Option.some_bind]
            at hs
          injection hs with hs
          subst hs
          obtain ⟨f1, f2, f3⟩ := copy_fields _ _ _ _ _ hc1
          refine ⟨f1, f3, ?_⟩
          show d1.ptr - 1 < d.cap
          rw [f2]
          have := h.1
          omega
      · exact Option.noConfusion hs
    · split at hs
      · rcases hc1 : copy d (t + 1) t index with _ | d1
        · rw [hc1] at hs
          simp only [Option.bind_eq_bind, Option.none_bind] at hs
          exact Option.noConfusion hs
        · rw [hc1] at hs
          simp only [Option.pure_def, Option.bind_eq_bind, Option.some_bind]
            at hs
          injection hs with hs
          subst hs
          obtain ⟨f1, f2, f3⟩ := copy_fields _ _ _ _ _ hc1
          exact ⟨f1, f3, by rw [f2]; exact h.1⟩
      · split at hs
        · split at hs
          · rcases hc1 : copy d idx (idx + 1) (d.ptr - idx - 1) with _ | d1
            · rw [hc1] at hs
              simp only [Option.bind_eq_bind, Option.none_bind] at hs
              exact Option.noConfusion hs
            · rw [hc1] at hs
              simp only [Option.pure_def, Option.bind_eq_bind,
                Option.some_bind] at hs
              injection hs with hs
              subst hs
              obtain ⟨f1, f2, f3⟩ := copy_fields _ _ _ _ _ hc1
              refine ⟨f1, f3, ?_⟩
              show d1.ptr - 1 < d.cap
              rw [f2]
              have := h.1
              omega
          · exact Option.noConfusion hs
        · split at hs
          · rcases hc1 : copy d idx (idx + 1) (d.cap - idx - 1) with _ | d1
            · rw [hc1] at hs
              simp only [Option.bind_eq_bind, Option.none_bind] at hs
              exact Option.noConfusion hs
            · rw [hc1] at hs
              simp only [Option.bind_eq_bind, Option.some_bind] at hs
              obtain ⟨f1, f2, f3⟩ := copy_fields _ _ _ _ _ hc1
              split at hs
              · rcases hc2 : copy d1 (d.cap - 1) 0 1 with _ | da
                · rw [hc2] at hs
                  simp only [Option.bind_eq_bind, Option.none_bind] at hs
                  exact Option.noConfusion hs
                · rw [hc2] at hs
                  simp only [Option.bind_eq_bind, Option.some_bind] at hs
                  rcases hc3 : copy da 0 1 (d.ptr - 1) with _ | d2
                  · rw [hc3] at hs
                    simp only [Option.bind_eq_bind, Option.none_bind] at hs
                    exact Option.noConfusion hs
                  · rw [hc3] at hs
                    simp only [Option.bind_eq_bind, Option.some_bind] at hs
                    obtain ⟨g1, g2, g3⟩ := copy_fields _ _ _ _ _ hc2
                    obtain ⟨k1, k2, k3⟩ := copy_fields _ _ _ _ _ hc3
                    rcases hws : wrap_sub d.cap d2.ptr 1 with _ | pv
                    · rw [hws] at hs
                      simp only [Option.bind_eq_bind, Option.none_bind] at hs
                      exact Option.noConfusion hs
                    · rw [hws] at hs
                      simp only [Option.pure_def, Option.bind_eq_bind,
                        Option.some_bind] at hs
                      injection hs with hs
                      subst hs
                      have hpv : pv < d.cap :=
                        wrap_sub_lt d.cap d2.ptr 1 pv hws
                          (by rw [k2, g2, f2]; exact h.1)
                      exact ⟨by show d2.cap = d.cap; rw [k1, g1, f1],
                        by show d2.len = d.len; rw [k3, g3, f3], hpv⟩
              · simp only [Option.pure_def, Option.bind_eq_bind,
                  Option.some_bind] at hs
                rcases hws : wrap_sub d.cap d1.ptr 1 with _ | pv
                · rw [hws] at hs
                  simp only [Option.bind_eq_bind, Option.none_bind] at hs
                  exact Option.noConfusion hs
                · rw [hws] at hs
                  simp only [Option.pure_def, Option.bind_eq_bind,
                    Option.some_bind] at hs
                  injection hs with hs
                  subst hs
                  have hpv : pv < d.cap :=
                    wrap_sub_lt d.cap d1.ptr 1 pv hws (by rw [f2]; exact h.1)
                  exact ⟨by show d1.cap = d.cap; rw [f1],
                    by show d1.len = d.len; rw [f3], hpv⟩
          · rcases hc1 : copy d 1 0 idx with _ | d1
            · rw [hc1] at hs
              simp only [Option.bind_eq_bind, Option.none_bind] at hs
              exact Option.noConfusion hs
            · rw [hc1] at hs
              simp only [Option.bind_eq_bind, Option.some_bind] at hs
              rcases hc2 : copy d1 0 (d.cap - 1) 1 with _ | d2
              · rw [hc2] at hs
                simp only [Option.bind_eq_bind, Option.none_bind] at hs
                exact Option.noConfusion hs
              · rw [hc2] at hs
                simp only [Option.bind_eq_bind, Option.some_bind] at hs
                rcases hc3 : copy d2 (t + 1) t (d.cap - t - 1) with _ | d3
                · rw [hc3] at hs
                  simp only [Option.bind_eq_bind, Option.none_bind] at hs
                  exact Option.noConfusion hs
                · rw [hc3] at hs
                  simp only [Option.pure_def, Option.bind_eq_bind,
                    Option.some_bind] at hs
                  injection hs with hs
                  subst hs
                  obtain ⟨f1, f2, f3⟩ := copy_fields _ _ _ _ _ hc1
                  obtain ⟨g1, g2, g3⟩ := copy_fields _ _ _ _ _ hc2
                  obtain ⟨k1, k2, k3⟩ := copy_fields _ _ _ _ _ hc3
                  exact ⟨by rw [k1, g1, f1], by rw [k3, g3, f3],
                    by rw [k2, g2, f2]; exact h.1⟩

theorem wf_remove (d : FixedVecDeque α) (h : WFdeq d) :
    ∀ i p, remove d i = some p → WFdeq p.2 := by
  intro i p hp
  by_cases h0 : d.cap = 0 ∨ d.len ≤ i
  · rw [remove_absent d i h0] at hp
    injection hp with hp
    subst hp
    exact h
  · have hc : 0 < d.cap := Nat.lt_of_le_of_lt (Nat.zero_le _) h.1
    unfold remove at hp
    rw [if_neg h0, ptr_index_some d h, tail_some d h, is_contiguous_some d h]
      at hp
    simp only [Option.pure_def, Option.bind_eq_bind, Option.some_bind] at hp
    rw [buffer_read_some d _ (Nat.mod_lt _ hc)] at hp
    simp only [Option.some_bind] at hp
    rcases hs : remove_step d i ((tailN d + i) % d.cap) d.ptr (tailN d)
        (d.len != d.cap && decide (tailN d ≤ d.ptr)) (d.len - i) with _ | st
    · rw [hs] at hp
      simp only [Option.none_bind] at hp
      exact Option.noConfusion hp
    · rw [hs] at hp
      simp only [Option.some_bind] at hp
      obtain ⟨f1, f2, f3⟩ :=
        remove_step_wf d h i ((tailN d + i) % d.cap) (tailN d) _ _ st hs
          (tailN_lt d hc)
      refine wf_remove_finish st.1 st.2 _ p hp ?_ ?_
      · rw [f1]
        exact f3
      · rw [f1, f2]
        have := h.2
        omega

theorem wf_swap_remove_back (d : FixedVecDeque α) (h : WFdeq d) :
    ∀ i p, swap_remove_back d i = some p → WFdeq p.2 := by
  intro i p hp
  unfold swap_remove_back at hp
  split at hp
  · rcases hs : swap d i (d.len - 1) with _ | d1
    · rw [hs] at hp
      simp only [Option.bind_eq_bind, Option.none_bind] at hp
      exact Option.noConfusion hp
    · rw [hs] at hp
      simp only [Option.bind_eq_bind, Option.some_bind] at hp
      exact wf_pop_back d1 (wf_swap d h i (d.len - 1) d1 hs) p hp
  · split at hp
    · simp only [Option.pure_def] at hp
      injection hp with hp
      subst hp
      exact h
    · exact wf_pop_back d h p hp

theorem wf_swap_remove_front (d : FixedVecDeque α) (h : WFdeq d) :
    ∀ i p, swap_remove_front d i = some p → WFdeq p.2 := by
  intro i p hp
  unfold swap_remove_front at hp
  split at hp
  · rcases hs : swap d i 0 with _ | d1
    · rw [hs] at hp
      simp only [Option.bind_eq_bind, Option.none_bind] at hp
      exact Option.noConfusion hp
    · rw [hs] at hp
      simp only [Option.bind_eq_bind, Option.some_bind] at hp
      exact wf_pop_front d1 (wf_swap d h i 0 d1 hs) p hp
  · split at hp
    · simp only [Option.pure_def] at hp
      injection hp with hp
      subst hp
      exact h
    · exact wf_pop_front d h p hp

theorem retainGo_fields (pr : α → Bool) :
    ∀ (fuel : Nat) (d : FixedVecDeque α) (i del : Nat)
      (q : FixedVecDeque α × Nat), retainGo pr d i fuel del = some q →
      q.1.cap = d.cap ∧ q.1.ptr = d.ptr ∧ q.1.len = d.len := by
  intro fuel
  induction fuel with
  | zero =>
    intro d i del q hq
    simp only [retainGo] at hq
    injection hq with hq
    subst hq
    exact ⟨rfl, rfl, rfl⟩
  | succ fuel ih =>
    intro d i del q hq
    simp only [retainGo] at hq
    rcases hpi : ptr_index d i with _ | off
    · rw [hpi] at hq
      simp only [Option.bind_eq_bind, Option.none_bind] at hq
      exact Option.noConfusion hq
    · rw [hpi] at hq
      simp only [Option.bind_eq_bind, Option.some_bind] at hq
      rcases hb : buffer d off with _ | v
      · rw [hb] at hq
        simp only [Option.none_bind] at hq
        exact Option.noConfusion hq
      · rw [hb] at hq
        simp only [Option.some_bind] at hq
        split at hq
        · exact ih d (i + 1) (del + 1) q hq
        · split at hq
          · rcases hs : swap d (i - del) i with _ | d1
            · rw [hs] at hq
              simp only [Option.none_bind] at hq
              exact Option.noConfusion hq
            · rw [hs] at hq
              simp only [Option.some_bind] at hq
              obtain ⟨f1, f2, f3⟩ := swap_fields _ _ _ _ hs
              obtain ⟨g1, g2, g3⟩ := ih d1 (i + 1) del q hq
              exact ⟨by rw [g1, f1], by rw [g2, f2], by rw [g3, f3]⟩
          · exact ih d (i + 1) del q hq

theorem wf_retain (d : FixedVecDeque α) (h : WFdeq d) :
    ∀ pred d2, retain d pred = some d2 → WFdeq d2 := by
  intro pred d2 hd
  unfold retain at hd
  dsimp only at hd
  rcases hg : retainGo pred d 0 d.len 0 with _ | q
  · rw [hg] at hd
    simp only [Option.bind_eq_bind, Option.none_bind] at hd
    exact Option.noConfusion hd
  · obtain ⟨q1, del⟩ := q
    rw [hg] at hd
    simp only [Option.bind_eq_bind, Option.some_bind] at hd
    obtain ⟨f1, f2, f3⟩ := retainGo_fields pred d.len d 0 0 (q1, del) hg
    have hq1 : WFdeq q1 := ⟨by rw [f2, f1]; exact h.1, by rw [f3, f1]; exact h.2⟩
    split at hd
    · exact wf_truncate q1 hq1 (d.len - del) d2 hd
    · simp only [Option.pure_def] at hd
      injection hd with hd
      subst hd
      exact hq1

/-- Claim C10: with positive capacity, every public operation that succeeds
leaves the cursor strictly below the capacity and the length at most the
capacity, and in every well-formed state the logical element at index `i`
lives at physical offset `(tail + i) mod Capacity` where
`tail = (head - len) mod Capacity`. -/
theorem invariants_and_layout (d : FixedVecDeque α) (h : WFdeq d) :
    (∀ p, push_back d = some p → WFdeq p.2) ∧
    (∀ p, push_front d = some p → WFdeq p.2) ∧
    (∀ p, pop_front d = some p → WFdeq p.2) ∧
    (∀ p, pop_back d = some p → WFdeq p.2) ∧
    (∀ i p, remove d i = some p → WFdeq p.2) ∧
    (∀ i p, swap_remove_back d i = some p → WFdeq p.2) ∧
    (∀ i p, swap_remove_front d i = some p → WFdeq p.2) ∧
    (∀ n d2, truncate d n = some d2 → WFdeq d2) ∧
    WFdeq (clear d) ∧
    (∀ pred d2, retain d pred = some d2 → WFdeq d2) ∧
    (∀ n v d2, resize d n v = some d2 → WFdeq d2) ∧
    (∀ i j d2, swap d i j = some d2 → WFdeq d2) ∧
    (∀ i, i < d.len →
      get d i = some (some (d.data ((tailSpec d + i) % d.cap)))) :=
  ⟨wf_push_back d h, wf_push_front d h, wf_pop_front d h, wf_pop_back d h,
    wf_remove d h, wf_swap_remove_back d h, wf_swap_remove_front d h,
    wf_truncate d h, ⟨Nat.lt_of_le_of_lt (Nat.zero_le _) h.1, Nat.zero_le _⟩,
    wf_retain d h, wf_resize d h, fun i j => wf_swap d h i j,
    fun i hi => get_position d h i hi⟩

theorem invariants_and_layout_witness :
    WFdeq dW ∧
    (∀ p, push_back dW = some p → WFdeq p.2) ∧ WFdeq (clear dW) :=
  ⟨by decide, (invariants_and_layout dW (by decide)).1,
    (invariants_and_layout dW (by decide)).2.2.2.2.2.2.2.2.1⟩

/-! ### The interior-removal bug on full deques (claim C1) -/

/-- Claim C1 fails on the code.  On the reachable full deque of capacity 3
holding `[0, 1, 2]` (three `push_back`s from empty, so `ptr = 0` and
`len = 3`), `remove 2` takes the discontiguous closer-to-head path and
parks the saved temporary at the old `head` slot — which, on a full deque,
is the front element's slot.  It returns the removed value `2`, but the
remaining logical sequence is `[2, 1]` instead of `[0, 1]`. -/
theorem remove_full_clobbers_front :
    ((extend (newDeq 3 (0 : Nat)) [0, 1, 2]).bind
      (fun d => remove d 2)).map (fun p => (p.1, toList p.2, p.2.len)) =
    some (some 2, [2, 1], 2) := by
  decide

/-- One exhaustive check of a removal position on states with `len < cap`
and identity storage. -/
def removeOkAt (cap p l i : Nat) : Bool :=
  let d : FixedVecDeque Nat := ⟨cap, p, l, fun k => k⟩
  match remove d i with
  | some (some v, d2) =>
      v == (toList d).getD i 999 && decide (toList d2 = (toList d).eraseIdx i)
  | _ => false

/-- Below full occupancy the removal algorithm is order-preserving: for
every capacity up to 5, every rotation, every length strictly below the
capacity and every in-range index, `remove` returns the target element and
erases exactly it.  (The clobbering of the front element on interior
removal is specific to `len = cap`.) -/
theorem remove_order_preserving_below_capacity :
    ((List.range 6).all fun cap =>
      (List.range cap).all fun p =>
        (List.range cap).all fun l =>
          (List.range l).all fun i => removeOkAt cap p l i) = true := by
  decide

end FVD
